import Mathlib

set_option maxRecDepth 8192

/- Shallow embedding of `src/c_linter.py`.

Characters are modelled over the ASCII fragment used by the program's
regular expressions: `\w` is `[A-Za-z0-9_]`, `\s` is the six ASCII
whitespace characters, and `.` is any character other than a newline.
Lines are `List Char`, carrying their trailing newline exactly as
Python's `readlines` produces them. -/

/-- Model of the regex class `\w` (Python word character, ASCII fragment). -/
def isWordChar (c : Char) : Bool := c.isAlpha || c.isDigit || c = '_'

/-- Model of the regex class `\s` (Python whitespace, ASCII fragment). -/
def isSpaceChar (c : Char) : Bool :=
  c = ' ' || c = '\t' || c = '\n' || c = '\r' || c = '\x0b' || c = '\x0c'

/-- Model of Python's `str.strip()`: removes leading and trailing whitespace. -/
def strip (s : List Char) : List Char :=
  ((s.dropWhile isSpaceChar).reverse.dropWhile isSpaceChar).reverse

/-- The non-whitespace content of a piece of text, in order. -/
def nonWsOf (s : List Char) : List Char := s.filter (fun c => !isSpaceChar c)

/-- A successful attempt of `POINTER_SPACING_PATTERN = \b(\w+)\s*\*\s*(\w+)`
at the current position: the two captured word groups, the two whitespace
runs around the asterisk, and the remainder of the text after the match. -/
structure PtrMatch where
  w1 : List Char
  sp1 : List Char
  sp2 : List Char
  w2 : List Char
  rest : List Char
deriving DecidableEq

/-- Attempt `\b(\w+)\s*\*\s*(\w+)` at the start of `s` (the `\b` context is
checked by the caller).  Greedy matching of `\w+`, `\s*` is exact here
because `\w`, `\s` and `*` are pairwise disjoint, so backtracking can never
produce a match that the maximal-run reading misses. -/
def tryPtrMatch (s : List Char) : Option PtrMatch :=
  let w1 := s.takeWhile isWordChar
  if w1.isEmpty then none
  else
    let r1 := s.dropWhile isWordChar
    let sp1 := r1.takeWhile isSpaceChar
    match r1.dropWhile isSpaceChar with
    | '*' :: r3 =>
      let sp2 := r3.takeWhile isSpaceChar
      let r4 := r3.dropWhile isSpaceChar
      let w2 := r4.takeWhile isWordChar
      if w2.isEmpty then none
      else some ⟨w1, sp1, sp2, w2, r4.dropWhile isWordChar⟩
    | _ => none

/-- The left-to-right non-overlapping scan of `re.sub` with the pointer
pattern and replacement `\1 *\2`.  `prevW` records whether the previous
character was a word character (for the `\b` test); `fuel` bounds the
recursion (the scan can jump several characters at once) and is always
called with `fuel ≥ s.length`, under which it is fuel-independent. -/
def subPtrAux : Nat → Bool → List Char → List Char
  | 0, _, s => s
  | _ + 1, _, [] => []
  | fuel + 1, prevW, c :: rest =>
    if !prevW && isWordChar c then
      match tryPtrMatch (c :: rest) with
      | some m => m.w1 ++ ' ' :: '*' :: (m.w2 ++ subPtrAux fuel true m.rest)
      | none => c :: subPtrAux fuel true rest
    else
      c :: subPtrAux fuel (isWordChar c) rest

/-- `fix_pointer_spacing` from `src/c_linter.py` (line 39):
`re.sub(POINTER_SPACING_PATTERN, POINTER_SPACING_REPLACEMENT, line)`. -/
def fix_pointer_spacing (s : List Char) : List Char :=
  subPtrAux s.length false s

/-- `re.search(POINTER_SPACING_PATTERN, line)` converted to a Bool: does the
scan find a match anywhere? -/
def rePtrSearch : Bool → List Char → Bool
  | _, [] => false
  | prevW, c :: rest =>
    (if !prevW && isWordChar c then (tryPtrMatch (c :: rest)).isSome else false)
      || rePtrSearch (isWordChar c) rest

/-- `re.match(ELSE_BRACE_PATTERN, line)` with
`ELSE_BRACE_PATTERN = ^(\s*)}\s*(else(?: if)?\b[^{]*)\s*{`, returning the
two captured groups on success.  Backtracking analysis: the leading `(\s*)`
and the `\s*` after `}` are maximal runs (the following literal is not
whitespace); after the literal `else`, either the optional ` if` succeeds
together with its following `\b`, or the group is dropped and `\b` holds
against the next character — in both cases the combined test is that the
character right after `else` is not a word character — and
`[^{]*\s*{` succeeds exactly when an opening brace occurs later, with
group 2 extending to just before the first such brace. -/
def reElseMatch (s : List Char) : Option (List Char × List Char) :=
  let ind := s.takeWhile isSpaceChar
  match s.dropWhile isSpaceChar with
  | '\x7d' :: r2 =>
    match r2.dropWhile isSpaceChar with
    | 'e' :: 'l' :: 's' :: 'e' :: t =>
      match t with
      | [] => none
      | c :: _ =>
        if isWordChar c then none
        else if '\x7b' ∈ t then
          some (ind, 'e' :: 'l' :: 's' :: 'e' :: t.takeWhile (fun d => !(d == '\x7b')))
        else none
    | _ => none
  | _ => none

/-- The shared tail test `\s*{` of `BRACE_ON_SAME_LINE_PATTERN` and
`FUNCTION_BRACE_PATTERN`, applied after a candidate position: skip the
whitespace run, require an opening brace, return the remainder after it. -/
def braceSplit (rest : List Char) : Option (List Char) :=
  match rest.dropWhile isSpaceChar with
  | '\x7b' :: r => some r
  | _ => none

/-- The anchored attempt of `FUNCTION_BRACE_PATTERN = (.*\))\s*{\s*(.*)` at
the start of the text: returns group 1 and the remainder directly after the
matched opening brace.  The greedy `.*\)` selects the rightmost `)` that is
still in the newline-free prefix and is followed by `\s*{`; this recursion
prefers a split found in the tail (further right) and only then tries the
head position. -/
def headerSplitAt : List Char → Option (List Char × List Char)
  | [] => none
  | c :: rest =>
    match headerSplitAt rest with
    | some (g1, r) => if c = '\n' then none else some (c :: g1, r)
    | none =>
      if c = ')' then (braceSplit rest).map (fun r => ([c], r))
      else none

/-- `re.search(FUNCTION_BRACE_PATTERN, line)`: try the anchored attempt at
every start position, left to right; on success group 2 is the text after
the brace with leading whitespace skipped, up to the end of the line
(`.` does not cross a newline). -/
def funcSearch : List Char → Option (List Char × List Char)
  | [] => none
  | c :: rest =>
    match headerSplitAt (c :: rest) with
    | some (g1, r) =>
      some (g1, (r.dropWhile isSpaceChar).takeWhile (fun d => !(d == '\n')))
    | none => funcSearch rest

/-- One iteration of the loop in `fix_brace_placement`
(`src/c_linter.py` lines 47-77): the output lines produced for one input
line.  The lone-brace test comes first, then the else shape, then the
general header shape, then passthrough. -/
def fix_brace_placement_line (line : List Char) : List (List Char) :=
  let stripped := strip line
  let indent := line.takeWhile isSpaceChar
  if stripped = ['\x7b'] ∨ stripped = ['\x7d'] then [line]
  else
    match reElseMatch line with
    | some (ind, g2) =>
      [ind ++ ['\x7d', '\n'], ind ++ strip g2 ++ ['\n'], ind ++ ['\x7b', '\n']]
    | none =>
      match funcSearch line with
      | some (g1, g2) =>
        (g1 ++ ['\n']) :: (indent ++ ['\x7b', '\n']) ::
          (if strip g2 = [] then [] else [indent ++ strip g2 ++ ['\n']])
      | none => [line]

/-- `fix_brace_placement` from `src/c_linter.py` (lines 43-79). -/
def fix_brace_placement (lines : List (List Char)) : List (List Char) :=
  (lines.map fix_brace_placement_line).flatten

/-- `re.search(BRACE_ON_SAME_LINE_PATTERN, line)` with pattern `\)\s*{`. -/
def reBraceSame : List Char → Bool
  | [] => false
  | c :: rest => ((c == ')') && (braceSplit rest).isSome) || reBraceSame rest

/-- Helper for `OPENING_BRACE_NOT_ALONE_PATTERN`: after the `{`, look for a
character matching `[^\s}]`, where the `.*` in between cannot cross a
newline. -/
def openTailSearch : List Char → Bool
  | [] => false
  | c :: rest =>
    if c = '\n' then false
    else (!isSpaceChar c && !(c == '\x7d')) || openTailSearch rest

/-- Helper for `OPENING_BRACE_NOT_ALONE_PATTERN`: after the initial `[^\s]`,
look for a `{` (crossing only non-newline characters) whose tail search
succeeds. -/
def openMidSearch : List Char → Bool
  | [] => false
  | c :: rest =>
    if c = '\n' then false
    else (c == '\x7b' && openTailSearch rest) || openMidSearch rest

/-- `re.search(OPENING_BRACE_NOT_ALONE_PATTERN, line)` with pattern
`[^\s].*{.*[^\s}]`. -/
def reOpenNotAlone : List Char → Bool
  | [] => false
  | c :: rest => (!isSpaceChar c && openMidSearch rest) || reOpenNotAlone rest

/-- Helper for `CLOSING_BRACE_NOT_ALONE_PATTERN`: after the `}`, look for a
character matching `[^\s{]`. -/
def closeTailSearch : List Char → Bool
  | [] => false
  | c :: rest =>
    if c = '\n' then false
    else (!isSpaceChar c && !(c == '\x7b')) || closeTailSearch rest

/-- Helper for `CLOSING_BRACE_NOT_ALONE_PATTERN`: after the initial `[^\s]`,
look for a `}` whose tail search succeeds. -/
def closeMidSearch : List Char → Bool
  | [] => false
  | c :: rest =>
    if c = '\n' then false
    else (c == '\x7d' && closeTailSearch rest) || closeMidSearch rest

/-- `re.search(CLOSING_BRACE_NOT_ALONE_PATTERN, line)` with pattern
`[^\s].*}.*[^\s{]`. -/
def reCloseNotAlone : List Char → Bool
  | [] => false
  | c :: rest => (!isSpaceChar c && closeMidSearch rest) || reCloseNotAlone rest

/-- The four lint rules of `lint_c_code`, in the order they are tested.
Each corresponds to one fixed message constant of the source. -/
inductive Rule where
  | pointer
  | braceNewLine
  | openBraceAlone
  | closeBraceAlone
deriving DecidableEq

/-- The diagnostics `lint_c_code` emits for a single line, in emission
order (`src/c_linter.py` lines 102-115). -/
def lintLine (line : List Char) : List Rule :=
  (if rePtrSearch false line then [Rule.pointer] else []) ++
  (if reBraceSame line then [Rule.braceNewLine] else []) ++
  (if reOpenNotAlone line then [Rule.openBraceAlone] else []) ++
  (if reCloseNotAlone line then [Rule.closeBraceAlone] else [])

/-- The enumeration loop of `lint_c_code`: line numbers are 1-based and
each line's diagnostics are appended in order. -/
def lintFile : Nat → List (List Char) → List (Nat × Rule)
  | _, [] => []
  | n, l :: ls => (lintLine l).map (fun r => (n, r)) ++ lintFile (n + 1) ls

/-- `lint_c_code` from `src/c_linter.py` (lines 97-115), as the list of
(line number, rule) diagnostics it prints for the given lines. -/
def lint_c_code (lines : List (List Char)) : List (Nat × Rule) :=
  lintFile 1 lines

/-- `('.c', '.h')`-suffix test used by the CLI and by `get_all_c_files`. -/
def endsDotC (p : List Char) : Bool :=
  (['.', 'c'].isSuffixOf p) || (['.', 'h'].isSuffixOf p)

/-- One line of standard output of the program, abstracted: the usage,
wrong-extension and not-found error lines, the per-file completion status
line, and a `<path>:<lineno>: <message>` diagnostic line. -/
inductive OutEvent where
  | usage
  | wrongExt (target : List Char)
  | notFound (target : List Char)
  | complete (path : List Char)
  | diag (path : List Char) (lineno : Nat) (rule : Rule)
deriving DecidableEq

/-- Modelled from the spec and the `os`/`sys` calls of `__main__`: the
external world the program runs in.  `argv` is the full `sys.argv`;
`isfile`/`isdir` model `os.path.isfile`/`os.path.isdir`; `walk` is the list
of file paths that `os.walk` yields under the target directory, in walk
order; `read` gives the lines `readlines` returns for a path (reads are
assumed to succeed: I/O exceptions are outside this embedding). -/
structure Env where
  argv : List (List Char)
  isfile : List Char → Bool
  isdir : List Char → Bool
  walk : List (List Char)
  read : List Char → List (List Char)

/-- `get_all_c_files` from `src/c_linter.py` (lines 117-124). -/
def get_all_c_files (env : Env) : List (List Char) :=
  env.walk.filter endsDotC

/-- The diagnostic output lines `lint_c_code` prints for one file. -/
def lintEvents (path : List Char) (lines : List (List Char)) : List OutEvent :=
  (lint_c_code lines).map (fun p => OutEvent.diag path p.1 p.2)

/-- Processing of one file by the main loop (`src/c_linter.py` lines
148-151): in fix mode `lint_and_fix_c_file` reads the file, rewrites it,
writes it back and prints the completion line, and then `lint_c_code`
re-reads the just-written file; in lint-only mode only `lint_c_code` runs.
Returns (output lines, paths read, writes performed). -/
def runFile (env : Env) (doFix : Bool) (path : List Char) :
    List OutEvent × List (List Char) × List (List Char × List (List Char)) :=
  if doFix then
    let fixed := fix_brace_placement ((env.read path).map fix_pointer_spacing)
    (OutEvent.complete path :: lintEvents path fixed, [path, path], [(path, fixed)])
  else
    (lintEvents path (env.read path), [path], [])

/-- The `for file in files_to_lint` loop. -/
def runFiles (env : Env) (doFix : Bool) :
    List (List Char) → List OutEvent × List (List Char) × List (List Char × List (List Char))
  | [] => ([], [], [])
  | p :: ps =>
    let r := runFile env doFix p
    let rs := runFiles env doFix ps
    (r.1 ++ rs.1, r.2.1 ++ rs.2.1, r.2.2 ++ rs.2.2)

/-- The observable result of one program run: exit status, output lines,
paths opened for reading, and (path, lines) writes. -/
structure RunResult where
  exitCode : Nat
  output : List OutEvent
  reads : List (List Char)
  writes : List (List Char × List (List Char))
deriving DecidableEq

/-- The `__main__` block of `src/c_linter.py` (lines 126-151): argument
count check, file/extension check, directory walk, then the per-file loop.
A run that reaches the loop terminates with exit status 0. -/
def main_model (env : Env) : RunResult :=
  match env.argv with
  | _ :: target :: fixArg :: _ =>
    let doFix := (fixArg.map Char.toLower) = ('t' :: 'r' :: 'u' :: 'e' :: [])
    if env.isfile target then
      if endsDotC target then
        let r := runFiles env doFix [target]
        ⟨0, r.1, r.2.1, r.2.2⟩
      else ⟨1, [OutEvent.wrongExt target], [], []⟩
    else if env.isdir target then
      let r := runFiles env doFix (get_all_c_files env)
      ⟨0, r.1, r.2.1, r.2.2⟩
    else ⟨1, [OutEvent.notFound target], [], []⟩
  | _ => ⟨1, [OutEvent.usage], [], []⟩

/-- The error condition of the CLI: fewer than two user arguments, a
single-file target without a `.c`/`.h` suffix, or a target that is neither
an existing file nor an existing directory. -/
def exitErr (env : Env) : Bool :=
  match env.argv with
  | _ :: target :: _ :: _ =>
    if env.isfile target then !endsDotC target
    else !env.isdir target
  | _ => true

/-- Does the output contain one of the error lines? -/
def hasErrorEvent (out : List OutEvent) : Bool :=
  out.any (fun e =>
    match e with
    | OutEvent.usage => true
    | OutEvent.wrongExt _ => true
    | OutEvent.notFound _ => true
    | _ => false)

/-- The shape of a failed pointer attempt after the asterisk: either the
scanned text does not continue with an asterisk at all, or no word
character follows it. -/
def ptrFailShape (q : List Char) : Prop :=
  match q with
  | '*' :: r3 => (r3.dropWhile isSpaceChar).takeWhile isWordChar = []
  | _ => True

/-- Formalization of the claim's postcondition on the rewritten line: every
match that the left-to-right `re.sub` scan finds in the given text is
already in normalized form — exactly one space before the asterisk
(`sp1 = [' ']`) and none after it (`sp2 = []`).  `fuel` as in
`subPtrAux`. -/
def scanNormOk : Nat → Bool → List Char → Bool
  | 0, _, _ => true
  | _ + 1, _, [] => true
  | fuel + 1, prevW, c :: rest =>
    if !prevW && isWordChar c then
      match tryPtrMatch (c :: rest) with
      | some m => ((m.sp1 == [' ']) && (m.sp2 == ([] : List Char))) && scanNormOk fuel true m.rest
      | none => scanNormOk fuel true rest
    else scanNormOk fuel (isWordChar c) rest

/- Basic facts about the character classes and list scanning helpers. -/

theorem space_not_word {c : Char} (h : isSpaceChar c = true) : isWordChar c = false := by
  simp only [isSpaceChar, Bool.or_eq_true, decide_eq_true_eq] at h
  rcases h with ((((h | h) | h) | h) | h) | h <;> subst h <;> rfl

theorem word_not_space {c : Char} (h : isWordChar c = true) : isSpaceChar c = false := by
  cases hs : isSpaceChar c
  · rfl
  · rw [space_not_word hs] at h
    cases h

theorem dropWhile_head_cases (p : α → Bool) (l : List α) :
    l.dropWhile p = [] ∨ ∃ d t, l.dropWhile p = d :: t ∧ p d = false := by
  cases h : l.dropWhile p with
  | nil => exact Or.inl rfl
  | cons d t =>
    refine Or.inr ⟨d, t, rfl, ?_⟩
    have := List.head?_dropWhile_not p l
    rw [h] at this
    exact this

theorem takeWhile_run {p : α → Bool} {u v : List α} (hu : ∀ c ∈ u, p c = true)
    (hv : v = [] ∨ ∃ d t, v = d :: t ∧ p d = false) :
    (u ++ v).takeWhile p = u ∧ (u ++ v).dropWhile p = v := by
  constructor
  · rw [List.takeWhile_append_of_pos hu]
    rcases hv with rfl | ⟨d, t, rfl, hd⟩
    · simp
    · simp [List.takeWhile_cons, hd]
  · rw [List.dropWhile_append_of_pos hu]
    rcases hv with rfl | ⟨d, t, rfl, hd⟩
    · simp
    · simp [List.dropWhile_cons, hd]

/- Inversion of `tryPtrMatch`. -/

theorem tryPtrMatch_some {s : List Char} {m : PtrMatch} (h : tryPtrMatch s = some m) :
    ∃ r3,
      m.w1 = s.takeWhile isWordChar ∧ m.w1.isEmpty = false ∧
      m.sp1 = (s.dropWhile isWordChar).takeWhile isSpaceChar ∧
      (s.dropWhile isWordChar).dropWhile isSpaceChar = '*' :: r3 ∧
      m.sp2 = r3.takeWhile isSpaceChar ∧
      m.w2 = (r3.dropWhile isSpaceChar).takeWhile isWordChar ∧
      m.w2.isEmpty = false ∧
      m.rest = (r3.dropWhile isSpaceChar).dropWhile isWordChar := by
  simp only [tryPtrMatch] at h
  split at h
  · cases h
  · rename_i he
    split at h
    · rename_i r3 hr3
      split at h
      · cases h
      · rename_i hw2
        cases h
        exact ⟨r3, rfl, by simpa using he, rfl, hr3, rfl, rfl, by simpa using hw2, rfl⟩
    · cases h

theorem tryPtrMatch_decomp {s : List Char} {m : PtrMatch} (h : tryPtrMatch s = some m) :
    s = m.w1 ++ (m.sp1 ++ '*' :: (m.sp2 ++ (m.w2 ++ m.rest))) := by
  obtain ⟨r3, hw1, -, hsp1, hr3, hsp2, hw2, -, hrest⟩ := tryPtrMatch_some h
  have e4 : (r3.dropWhile isSpaceChar).takeWhile isWordChar ++
      (r3.dropWhile isSpaceChar).dropWhile isWordChar = r3.dropWhile isSpaceChar :=
    List.takeWhile_append_dropWhile _ _
  have e3 : r3.takeWhile isSpaceChar ++ r3.dropWhile isSpaceChar = r3 :=
    List.takeWhile_append_dropWhile _ _
  have e2 : (s.dropWhile isWordChar).takeWhile isSpaceChar ++
      (s.dropWhile isWordChar).dropWhile isSpaceChar = s.dropWhile isWordChar :=
    List.takeWhile_append_dropWhile _ _
  have e1 : s.takeWhile isWordChar ++ s.dropWhile isWordChar = s :=
    List.takeWhile_append_dropWhile _ _
  rw [hw1, hsp1, hsp2, hw2, hrest, e4, e3, ← hr3, e2, e1]

theorem tryPtrMatch_w1_cons {c : Char} {t : List Char} {m : PtrMatch}
    (h : tryPtrMatch (c :: t) = some m) :
    isWordChar c = true ∧ m.w1 = c :: t.takeWhile isWordChar := by
  obtain ⟨r3, hw1, hne, -⟩ := tryPtrMatch_some h
  by_cases hc : isWordChar c = true
  · rw [List.takeWhile_cons_of_pos hc] at hw1
    exact ⟨hc, hw1⟩
  · rw [List.takeWhile_cons_of_neg hc] at hw1
    rw [hw1] at hne
    cases hne

theorem tryPtrMatch_rest_lt {s : List Char} {m : PtrMatch} (h : tryPtrMatch s = some m) :
    m.rest.length < s.length := by
  obtain ⟨r3, hw1, hne, -⟩ := tryPtrMatch_some h
  have hd := tryPtrMatch_decomp h
  have hpos : 0 < m.w1.length := by
    cases hm : m.w1 with
    | nil => rw [hm] at hne; cases hne
    | cons a t => simp [hm]
  rw [hd]
  simp only [List.length_append, List.length_cons]
  omega

theorem tryPtrMatch_w1_word {s : List Char} {m : PtrMatch} (h : tryPtrMatch s = some m) :
    ∀ c ∈ m.w1, isWordChar c = true := by
  obtain ⟨r3, hw1, -⟩ := tryPtrMatch_some h
  intro c hc
  rw [hw1] at hc
  exact List.mem_takeWhile_imp hc

theorem tryPtrMatch_w2_word {s : List Char} {m : PtrMatch} (h : tryPtrMatch s = some m) :
    ∀ c ∈ m.w2, isWordChar c = true := by
  obtain ⟨r3, -, -, -, -, -, hw2, -, -⟩ := tryPtrMatch_some h
  intro c hc
  rw [hw2] at hc
  exact List.mem_takeWhile_imp hc

theorem tryPtrMatch_w1_ne {s : List Char} {m : PtrMatch} (h : tryPtrMatch s = some m) :
    m.w1 ≠ [] := by
  obtain ⟨r3, -, hne, -⟩ := tryPtrMatch_some h
  intro he
  rw [he] at hne
  cases hne

theorem tryPtrMatch_w2_ne {s : List Char} {m : PtrMatch} (h : tryPtrMatch s = some m) :
    m.w2 ≠ [] := by
  obtain ⟨r3, -, -, -, -, -, -, hne, -⟩ := tryPtrMatch_some h
  intro he
  rw [he] at hne
  cases hne

theorem tryPtrMatch_rest_head {s : List Char} {m : PtrMatch} (h : tryPtrMatch s = some m) :
    m.rest = [] ∨ ∃ d t, m.rest = d :: t ∧ isWordChar d = false := by
  obtain ⟨r3, -, -, -, -, -, -, -, hrest⟩ := tryPtrMatch_some h
  rw [hrest]
  exact dropWhile_head_cases _ _

/- Structural facts about the substitution scan. -/

theorem subPtrAux_zero (p : Bool) (s : List Char) : subPtrAux 0 p s = s := rfl

theorem subPtrAux_nil (f : Nat) (p : Bool) : subPtrAux f p [] = [] := by
  cases f <;> rfl

theorem subPtrAux_cons (f : Nat) (p : Bool) (c : Char) (t : List Char) :
    ∃ t', subPtrAux f p (c :: t) = c :: t' := by
  cases f with
  | zero => exact ⟨t, rfl⟩
  | succ f =>
    simp only [subPtrAux]
    split
    · split
      · rename_i m hm
        obtain ⟨hc, hw1⟩ := tryPtrMatch_w1_cons hm
        refine ⟨t.takeWhile isWordChar ++ ' ' :: '*' :: (m.w2 ++ subPtrAux f true m.rest), ?_⟩
        rw [hw1]
        simp
      · exact ⟨_, rfl⟩
    · exact ⟨_, rfl⟩

theorem subPtrAux_words {u : List Char} (v : List Char) (f : Nat)
    (hu : ∀ c ∈ u, isWordChar c = true) :
    subPtrAux f true (u ++ v) = u ++ subPtrAux (f - u.length) true v := by
  induction u generalizing f with
  | nil => simp
  | cons c u ih =>
    have hc : isWordChar c = true := hu c (by simp)
    cases f with
    | zero => simp [subPtrAux_zero, Nat.zero_sub]
    | succ f =>
      have step : subPtrAux (f + 1) true ((c :: u) ++ v) =
          c :: subPtrAux f (isWordChar c) (u ++ v) := by
        simp only [List.cons_append, subPtrAux]
        rw [if_neg (by simp)]
        simp [List.append_eq]
      rw [step, hc, ih f (fun d hd => hu d (by simp [hd]))]
      simp [Nat.succ_sub_succ]

theorem subPtrAux_spaces {u : List Char} (v : List Char) (f : Nat) (p : Bool)
    (hu : ∀ c ∈ u, isSpaceChar c = true) :
    subPtrAux f p (u ++ v) =
      u ++ subPtrAux (f - u.length) (if u.isEmpty then p else false) v := by
  induction u generalizing f p with
  | nil => simp
  | cons c u ih =>
    have hc : isSpaceChar c = true := hu c (by simp)
    have hw : isWordChar c = false := space_not_word hc
    cases f with
    | zero => simp [subPtrAux_zero, Nat.zero_sub]
    | succ f =>
      have step : subPtrAux (f + 1) p ((c :: u) ++ v) =
          c :: subPtrAux f (isWordChar c) (u ++ v) := by
        simp only [List.cons_append, subPtrAux]
        rw [if_neg (by simp [hw])]
        simp [List.append_eq]
      rw [step, hw, ih f false (fun d hd => hu d (by simp [hd]))]
      have he : (if u.isEmpty then (false : Bool) else false) = false := by
        split <;> rfl
      rw [he]
      have he2 : (if ((c :: u).isEmpty : Bool) then p else false) = false := rfl
      rw [he2]
      simp [Nat.succ_sub_succ]

theorem tryPtrMatch_norm {w1 w2 rest : List Char}
    (h1 : w1 ≠ []) (hw1 : ∀ c ∈ w1, isWordChar c = true)
    (h2 : w2 ≠ []) (hw2 : ∀ c ∈ w2, isWordChar c = true)
    (hr : rest = [] ∨ ∃ d t, rest = d :: t ∧ isWordChar d = false) :
    tryPtrMatch (w1 ++ ' ' :: '*' :: (w2 ++ rest)) = some ⟨w1, [' '], [], w2, rest⟩ := by
  have hsp : isWordChar ' ' = false := rfl
  have t1 : (w1 ++ ' ' :: '*' :: (w2 ++ rest)).takeWhile isWordChar = w1 ∧
      (w1 ++ ' ' :: '*' :: (w2 ++ rest)).dropWhile isWordChar = ' ' :: '*' :: (w2 ++ rest) :=
    takeWhile_run hw1 (Or.inr ⟨' ', _, rfl, hsp⟩)
  have t2 : (' ' :: '*' :: (w2 ++ rest)).takeWhile isSpaceChar = [' '] ∧
      (' ' :: '*' :: (w2 ++ rest)).dropWhile isSpaceChar = '*' :: (w2 ++ rest) := by
    constructor
    · rw [List.takeWhile_cons_of_pos (by rfl), List.takeWhile_cons_of_neg (by decide)]
    · rw [List.dropWhile_cons_of_pos (by rfl), List.dropWhile_cons_of_neg (by decide)]
  have hw2h : ∃ d t, w2 ++ rest = d :: t ∧ isSpaceChar d = false := by
    cases w2 with
    | nil => exact absurd rfl h2
    | cons d t =>
      exact ⟨d, t ++ rest, rfl, word_not_space (hw2 d (by simp))⟩
  have t3 : (w2 ++ rest).takeWhile isSpaceChar = [] := by
    obtain ⟨d, t, he, hd⟩ := hw2h
    rw [he, List.takeWhile_cons_of_neg (by simp [hd])]
  have t4 : (w2 ++ rest).dropWhile isSpaceChar = w2 ++ rest := by
    obtain ⟨d, t, he, hd⟩ := hw2h
    rw [he, List.dropWhile_cons_of_neg (by simp [hd])]
  have t5 : (w2 ++ rest).takeWhile isWordChar = w2 ∧
      (w2 ++ rest).dropWhile isWordChar = rest := takeWhile_run hw2 hr
  simp only [tryPtrMatch, t1.1, t1.2, t2.1, t2.2, t3, t4, t5.1, t5.2]
  rw [if_neg (by simp [h1]), if_neg (by simp [h2])]

theorem subPtrAux_cons_nonword {c : Char} (f : Nat) (p : Bool) (t : List Char)
    (hc : isWordChar c = false) :
    subPtrAux (f + 1) p (c :: t) = c :: subPtrAux f false t := by
  simp only [subPtrAux]
  rw [if_neg (by simp [hc]), hc]

theorem tryPtrMatch_total {s : List Char} (hw1 : s.takeWhile isWordChar ≠ [])
    {r3 : List Char} (he : (s.dropWhile isWordChar).dropWhile isSpaceChar = '*' :: r3)
    (hne : (r3.dropWhile isSpaceChar).takeWhile isWordChar ≠ []) :
    ∃ m, tryPtrMatch s = some m := by
  simp only [tryPtrMatch, he]
  rw [if_neg (by simp [hw1]), if_neg (by simp [hne])]
  exact ⟨_, rfl⟩

theorem takeWhile_eq_nil_head {d : α} {t : List α} {p : α → Bool}
    (h : (d :: t).takeWhile p = []) : p d = false := by
  by_cases hd : p d = true
  · rw [List.takeWhile_cons_of_pos hd] at h
    cases h
  · exact Bool.eq_false_iff.mpr hd

theorem tryPtrMatch_none_core {c : Char} (wt sp q : List Char) (f2 : Nat) (p' : Bool)
    (hw : isWordChar c = true)
    (hwt : ∀ d ∈ wt, isWordChar d = true)
    (hsp : ∀ d ∈ sp, isSpaceChar d = true)
    (hqs : q = [] ∨ ∃ d t, q = d :: t ∧ isSpaceChar d = false)
    (hqw : sp = [] → q = [] ∨ ∃ d t, q = d :: t ∧ isWordChar d = false)
    (hfail : ptrFailShape q)
    (hf2 : q.length ≤ f2) :
    tryPtrMatch (c :: (wt ++ (sp ++ subPtrAux f2 p' q))) = none := by
  have hv : sp ++ subPtrAux f2 p' q = [] ∨
      ∃ d t, sp ++ subPtrAux f2 p' q = d :: t ∧ isWordChar d = false := by
    cases sp with
    | cons a sp' =>
      exact Or.inr ⟨a, sp' ++ subPtrAux f2 p' q, rfl,
        space_not_word (hsp a (by simp))⟩
    | nil =>
      simp only [List.nil_append]
      rcases hqw rfl with hq0 | ⟨d, t, hq, hd⟩
      · rw [hq0]
        exact Or.inl (subPtrAux_nil _ _)
      · rw [hq]
        obtain ⟨t', ht'⟩ := subPtrAux_cons f2 p' d t
        exact Or.inr ⟨d, t', ht', hd⟩
  have t1 := takeWhile_run hwt hv
  simp only [tryPtrMatch]
  rw [List.takeWhile_cons_of_pos hw, List.dropWhile_cons_of_pos hw, t1.1, t1.2]
  rw [if_neg (by simp)]
  rw [List.dropWhile_append_of_pos hsp]
  rcases hqs with hq0 | ⟨d, t, hq, hd⟩
  · rw [hq0, subPtrAux_nil]
    rfl
  · subst hq
    by_cases hstar : d = '*'
    · subst hstar
      cases f2 with
      | zero => simp at hf2
      | succ f3 =>
        rw [subPtrAux_cons_nonword f3 p' t (by rfl)]
        rw [List.dropWhile_cons_of_neg (by simp [hd])]
        have hfq : (t.dropWhile isSpaceChar).takeWhile isWordChar = [] := hfail
        have hsp2 : ∀ d ∈ t.takeWhile isSpaceChar, isSpaceChar d = true :=
          fun d hd => List.mem_takeWhile_imp hd
        have hR3 : subPtrAux f3 false t =
            t.takeWhile isSpaceChar ++
              subPtrAux (f3 - (t.takeWhile isSpaceChar).length)
                (if (t.takeWhile isSpaceChar).isEmpty then false else false)
                (t.dropWhile isSpaceChar) := by
          conv_lhs => rw [← List.takeWhile_append_dropWhile isSpaceChar t]
          rw [subPtrAux_spaces _ _ _ hsp2]
        split
        · rename_i r3 heq
          rw [List.cons.injEq] at heq
          rw [← heq.2, hR3, List.dropWhile_append_of_pos hsp2]
          rcases dropWhile_head_cases isSpaceChar t with hq2 | ⟨e, t2, hq2, he⟩
          · rw [hq2, subPtrAux_nil]
            rfl
          · rw [hq2]
            obtain ⟨t2', ht2'⟩ :=
              subPtrAux_cons (f3 - (t.takeWhile isSpaceChar).length) _ e t2
            rw [ht2', List.dropWhile_cons_of_neg (by simp [he])]
            have hew : isWordChar e = false := by
              rw [hq2] at hfq
              exact takeWhile_eq_nil_head hfq
            rw [List.takeWhile_cons_of_neg (by simp [hew])]
            rfl
        · rename_i hne
          exact absurd rfl (hne (subPtrAux f3 false t))
    · obtain ⟨t', ht'⟩ := subPtrAux_cons f2 p' d t
      rw [ht', List.dropWhile_cons_of_neg (by simp [hd])]
      split
      · rename_i r3 heq
        rw [List.cons.injEq] at heq
        exact absurd heq.1 hstar
      · rfl

/-- A position where the pointer pattern failed to match still fails to
match after the remainder of the line has been rewritten by the scan. -/
theorem tryPtrMatch_none_sub {c : Char} {rest : List Char} (f : Nat)
    (hw : isWordChar c = true) (h : tryPtrMatch (c :: rest) = none)
    (hf : rest.length ≤ f) :
    tryPtrMatch (c :: subPtrAux f true rest) = none := by
  have hwt : ∀ d ∈ rest.takeWhile isWordChar, isWordChar d = true :=
    fun d hd => List.mem_takeWhile_imp hd
  have hsp : ∀ d ∈ (rest.dropWhile isWordChar).takeWhile isSpaceChar, isSpaceChar d = true :=
    fun d hd => List.mem_takeWhile_imp hd
  have hsub : subPtrAux f true rest =
      rest.takeWhile isWordChar ++
        ((rest.dropWhile isWordChar).takeWhile isSpaceChar ++
          subPtrAux (f - (rest.takeWhile isWordChar).length -
              ((rest.dropWhile isWordChar).takeWhile isSpaceChar).length)
            (if ((rest.dropWhile isWordChar).takeWhile isSpaceChar).isEmpty then true else false)
            ((rest.dropWhile isWordChar).dropWhile isSpaceChar)) := by
    conv_lhs => rw [← List.takeWhile_append_dropWhile isWordChar rest]
    rw [subPtrAux_words _ _ hwt]
    congr 1
    conv_lhs => rw [← List.takeWhile_append_dropWhile isSpaceChar (rest.dropWhile isWordChar)]
    rw [subPtrAux_spaces _ _ _ hsp]
  have hq_s := dropWhile_head_cases isSpaceChar (rest.dropWhile isWordChar)
  have hq_w : (rest.dropWhile isWordChar).takeWhile isSpaceChar = [] →
      (rest.dropWhile isWordChar).dropWhile isSpaceChar = [] ∨
        ∃ d t, (rest.dropWhile isWordChar).dropWhile isSpaceChar = d :: t ∧
          isWordChar d = false := by
    intro hsp0
    have he : (rest.dropWhile isWordChar).dropWhile isSpaceChar = rest.dropWhile isWordChar := by
      conv_rhs => rw [← List.takeWhile_append_dropWhile isSpaceChar (rest.dropWhile isWordChar)]
      rw [hsp0, List.nil_append]
    rw [he]
    exact dropWhile_head_cases isWordChar rest
  have hfail : ptrFailShape ((rest.dropWhile isWordChar).dropWhile isSpaceChar) := by
    cases hq : (rest.dropWhile isWordChar).dropWhile isSpaceChar with
    | nil => trivial
    | cons d r3 =>
      by_cases hd : d = '*'
      · subst hd
        by_cases hne : (r3.dropWhile isSpaceChar).takeWhile isWordChar = []
        · exact hne
        · obtain ⟨m, hm⟩ := tryPtrMatch_total (s := c :: rest)
            (by rw [List.takeWhile_cons_of_pos hw]; simp)
            (by rw [List.dropWhile_cons_of_pos hw]; exact hq) hne
          rw [hm] at h
          cases h
      · simp only [ptrFailShape]
        split
        · rename_i r3' heq
          rw [List.cons.injEq] at heq
          exact absurd heq.1 hd
        · trivial
  have hlen : ((rest.dropWhile isWordChar).dropWhile isSpaceChar).length ≤
      f - (rest.takeWhile isWordChar).length -
        ((rest.dropWhile isWordChar).takeWhile isSpaceChar).length := by
    have e1 : (rest.takeWhile isWordChar).length + (rest.dropWhile isWordChar).length =
        rest.length := by
      rw [← List.length_append, List.takeWhile_append_dropWhile]
    have e2 : ((rest.dropWhile isWordChar).takeWhile isSpaceChar).length +
        ((rest.dropWhile isWordChar).dropWhile isSpaceChar).length =
        (rest.dropWhile isWordChar).length := by
      rw [← List.length_append, List.takeWhile_append_dropWhile]
    omega
  rw [hsub]
  exact tryPtrMatch_none_core _ _ _ _ _ hw hwt hsp hq_s hq_w hfail hlen

theorem scanNormOk_nil (f : Nat) (p : Bool) : scanNormOk f p [] = true := by
  cases f <;> rfl

theorem subPtrAux_cons_some {c : Char} {rest : List Char} {p : Bool} {m : PtrMatch} (f : Nat)
    (hcond : (!p && isWordChar c) = true) (hm : tryPtrMatch (c :: rest) = some m) :
    subPtrAux (f + 1) p (c :: rest) = m.w1 ++ ' ' :: '*' :: (m.w2 ++ subPtrAux f true m.rest) := by
  simp only [subPtrAux]
  rw [if_pos hcond, hm]

theorem subPtrAux_cons_none {c : Char} {rest : List Char} {p : Bool} (f : Nat)
    (hcond : (!p && isWordChar c) = true) (hm : tryPtrMatch (c :: rest) = none) :
    subPtrAux (f + 1) p (c :: rest) = c :: subPtrAux f true rest := by
  simp only [subPtrAux]
  rw [if_pos hcond, hm]

theorem subPtrAux_cons_else {c : Char} {rest : List Char} {p : Bool} (f : Nat)
    (hcond : (!p && isWordChar c) = false) :
    subPtrAux (f + 1) p (c :: rest) = c :: subPtrAux f (isWordChar c) rest := by
  simp only [subPtrAux]
  rw [if_neg (by simp [hcond])]

theorem scanNormOk_cons_some {c : Char} {rest : List Char} {p : Bool} {m : PtrMatch} (f : Nat)
    (hcond : (!p && isWordChar c) = true) (hm : tryPtrMatch (c :: rest) = some m) :
    scanNormOk (f + 1) p (c :: rest) =
      (((m.sp1 == [' ']) && (m.sp2 == ([] : List Char))) && scanNormOk f true m.rest) := by
  simp only [scanNormOk]
  rw [if_pos hcond, hm]

theorem scanNormOk_cons_none {c : Char} {rest : List Char} {p : Bool} (f : Nat)
    (hcond : (!p && isWordChar c) = true) (hm : tryPtrMatch (c :: rest) = none) :
    scanNormOk (f + 1) p (c :: rest) = scanNormOk f true rest := by
  simp only [scanNormOk]
  rw [if_pos hcond, hm]

theorem scanNormOk_cons_else {c : Char} {rest : List Char} {p : Bool} (f : Nat)
    (hcond : (!p && isWordChar c) = false) :
    scanNormOk (f + 1) p (c :: rest) = scanNormOk f (isWordChar c) rest := by
  simp only [scanNormOk]
  rw [if_neg (by simp [hcond])]

/-- If every match the scan would find is already normalized, the
substitution changes nothing. -/
theorem subPtrAux_id_of_norm : ∀ (f : Nat) (p : Bool) (s : List Char),
    s.length ≤ f → scanNormOk f p s = true → subPtrAux f p s = s := by
  intro f
  induction f with
  | zero => exact fun p s _ _ => subPtrAux_zero p s
  | succ f ih =>
    intro p s hf hn
    cases s with
    | nil => exact subPtrAux_nil _ _
    | cons c rest =>
      simp only [List.length_cons] at hf
      by_cases hcond : (!p && isWordChar c) = true
      · cases hm : tryPtrMatch (c :: rest) with
        | some m =>
          rw [scanNormOk_cons_some f hcond hm] at hn
          simp only [Bool.and_eq_true, beq_iff_eq] at hn
          obtain ⟨⟨hsp1, hsp2⟩, hrec⟩ := hn
          rw [subPtrAux_cons_some f hcond hm]
          have hlt := tryPtrMatch_rest_lt hm
          simp only [List.length_cons] at hlt
          rw [ih true m.rest (by omega) hrec]
          conv_rhs => rw [tryPtrMatch_decomp hm]
          rw [hsp1, hsp2]
          simp
        | none =>
          rw [scanNormOk_cons_none f hcond hm] at hn
          rw [subPtrAux_cons_none f hcond hm, ih true rest (by omega) hn]
      · have hcf : (!p && isWordChar c) = false := by simpa using hcond
        rw [scanNormOk_cons_else f hcf] at hn
        rw [subPtrAux_cons_else f hcf, ih (isWordChar c) rest (by omega) hn]

/-- The output of the substitution scan only contains normalized matches:
re-scanning it finds each replaced segment again, now with exactly one
space before the asterisk and none after. -/
theorem scanNormOk_subPtrAux : ∀ (f : Nat) (p : Bool) (s : List Char) (f2 : Nat),
    s.length ≤ f → scanNormOk f2 p (subPtrAux f p s) = true := by
  intro f
  induction f with
  | zero =>
    intro p s f2 hf
    cases s with
    | nil => exact scanNormOk_nil _ _
    | cons c rest => simp at hf
  | succ f ih =>
    intro p s f2 hf
    cases s with
    | nil =>
      rw [subPtrAux_nil]
      exact scanNormOk_nil _ _
    | cons c rest =>
      simp only [List.length_cons] at hf
      by_cases hcond : (!p && isWordChar c) = true
      · have hcw : isWordChar c = true := by
          rcases Bool.and_eq_true_iff.mp hcond with ⟨-, h2⟩
          exact h2
        cases hm : tryPtrMatch (c :: rest) with
        | some m =>
          rw [subPtrAux_cons_some f hcond hm]
          cases f2 with
          | zero => rfl
          | succ f2 =>
            have hOr : subPtrAux f true m.rest = [] ∨
                ∃ d t', subPtrAux f true m.rest = d :: t' ∧ isWordChar d = false := by
              rcases tryPtrMatch_rest_head hm with h0 | ⟨d, t', hdt, hd⟩
              · rw [h0]
                exact Or.inl (subPtrAux_nil _ _)
              · rw [hdt]
                obtain ⟨t2, ht2⟩ := subPtrAux_cons f true d t'
                exact Or.inr ⟨d, t2, ht2, hd⟩
            have hre := tryPtrMatch_norm (tryPtrMatch_w1_ne hm) (tryPtrMatch_w1_word hm)
              (tryPtrMatch_w2_ne hm) (tryPtrMatch_w2_word hm) hOr
            have hw1c := (tryPtrMatch_w1_cons hm).2
            rw [hw1c, List.cons_append]
            have hre' : tryPtrMatch (c :: (rest.takeWhile isWordChar ++
                ' ' :: '*' :: (m.w2 ++ subPtrAux f true m.rest))) =
                some ⟨m.w1, [' '], [], m.w2, subPtrAux f true m.rest⟩ := by
              rw [← List.cons_append, ← hw1c]
              exact hre
            rw [scanNormOk_cons_some f2 hcond hre']
            have hlt := tryPtrMatch_rest_lt hm
            simp only [List.length_cons] at hlt
            have hrec := ih true m.rest f2 (by omega)
            simp only [beq_self_eq_true, Bool.true_and]
            exact hrec
        | none =>
          rw [subPtrAux_cons_none f hcond hm]
          cases f2 with
          | zero => rfl
          | succ f2 =>
            have hnone := tryPtrMatch_none_sub f hcw hm (by omega)
            rw [scanNormOk_cons_none f2 hcond hnone]
            exact ih true rest f2 (by omega)
      · have hcf : (!p && isWordChar c) = false := by simpa using hcond
        rw [subPtrAux_cons_else f hcf]
        cases f2 with
        | zero => rfl
        | succ f2 =>
          rw [scanNormOk_cons_else f2 hcf]
          exact ih (isWordChar c) rest f2 (by omega)

/-- A line on which `re.search` finds no pointer pattern is left unchanged
by the substitution. -/
theorem subPtrAux_id_of_no_search : ∀ (s : List Char) (f : Nat) (p : Bool),
    rePtrSearch p s = false → subPtrAux f p s = s := by
  intro s
  induction s with
  | nil => exact fun f p _ => subPtrAux_nil _ _
  | cons c rest ih =>
    intro f p hs
    simp only [rePtrSearch, Bool.or_eq_false_iff] at hs
    obtain ⟨hs1, hs2⟩ := hs
    cases f with
    | zero => exact subPtrAux_zero _ _
    | succ f =>
      by_cases hcond : (!p && isWordChar c) = true
      · have hcw : isWordChar c = true := by
          rcases Bool.and_eq_true_iff.mp hcond with ⟨-, h2⟩
          exact h2
        have hnone : tryPtrMatch (c :: rest) = none := by
          cases hm : tryPtrMatch (c :: rest) with
          | none => rfl
          | some m =>
            rw [if_pos hcond, hm] at hs1
            cases hs1
        rw [subPtrAux_cons_none f hcond hnone]
        rw [hcw] at hs2
        rw [ih f true hs2]
      · have hcf : (!p && isWordChar c) = false := by simpa using hcond
        rw [subPtrAux_cons_else f hcf, ih f (isWordChar c) hs2]

/-- Claim C3: the Pointer-Spacing Normalizer replaces every occurrence the
`re.sub` scan finds of `WORD <spaces> * <spaces> WORD` with
`WORD SPACE *WORD`: rescanning the returned line finds only matches whose
asterisk is preceded by exactly one space and immediately followed by the
second word with no intervening space (`scanNormOk`).  The embedding is a
pure function, so the original line value is unchanged by construction.
The second conjunct checks the substitution on the spec's example. -/
theorem claim_C3 :
    (∀ s : List Char,
      scanNormOk (fix_pointer_spacing s).length false (fix_pointer_spacing s) = true) ∧
    fix_pointer_spacing (("int*  x").data) = ("int *x").data := by
  constructor
  · intro s
    exact scanNormOk_subPtrAux s.length false s _ le_rfl
  · decide

/-- Claim C4: the Pointer-Spacing Normalizer is idempotent — applying
`fix_pointer_spacing` twice yields the same result as applying it once. -/
theorem claim_C4 (s : List Char) :
    fix_pointer_spacing (fix_pointer_spacing s) = fix_pointer_spacing s := by
  have hb := scanNormOk_subPtrAux s.length false s (fix_pointer_spacing s).length le_rfl
  exact subPtrAux_id_of_norm _ _ _ le_rfl hb

/- Lint machinery lemmas. -/

theorem cond_false_of_nil {b : Bool} {x : Rule} (h : (if b = true then [x] else []) = []) :
    b = false := by
  cases b
  · rfl
  · simp at h

theorem lintLine_eq_nil {l : List Char} (h : lintLine l = []) :
    rePtrSearch false l = false ∧ reBraceSame l = false ∧
      reOpenNotAlone l = false ∧ reCloseNotAlone l = false := by
  simp only [lintLine, List.append_eq_nil] at h
  obtain ⟨⟨⟨h1, h2⟩, h3⟩, h4⟩ := h
  exact ⟨cond_false_of_nil h1, cond_false_of_nil h2, cond_false_of_nil h3,
    cond_false_of_nil h4⟩

theorem lintFile_eq_nil : ∀ {n : Nat} {ls : List (List Char)},
    lintFile n ls = [] → ∀ l ∈ ls, lintLine l = [] := by
  intro n ls
  induction ls generalizing n with
  | nil => intro _ l hl; cases hl
  | cons a ls ih =>
    intro h l hl
    simp only [lintFile, List.append_eq_nil] at h
    obtain ⟨h1, h2⟩ := h
    rcases List.mem_cons.mp hl with rfl | hl
    · exact List.map_eq_nil_iff.mp h1
    · exact ih h2 l hl

theorem headerSplitAt_braceSame : ∀ {s : List Char} {x : List Char × List Char},
    headerSplitAt s = some x → reBraceSame s = true := by
  intro s
  induction s with
  | nil => intro x h; cases h
  | cons c rest ih =>
    intro x h
    simp only [headerSplitAt] at h
    simp only [reBraceSame]
    cases hh : headerSplitAt rest with
    | some pr =>
      rw [ih hh, Bool.or_true]
    | none =>
      rw [hh] at h
      by_cases hc : c = ')'
      · rw [if_pos hc] at h
        cases hbs : braceSplit rest with
        | none => rw [hbs] at h; cases h
        | some r =>
          subst hc
          simp
      · rw [if_neg hc] at h
        cases h

theorem funcSearch_braceSame : ∀ {s : List Char} {x : List Char × List Char},
    funcSearch s = some x → reBraceSame s = true := by
  intro s
  induction s with
  | nil => intro x h; cases h
  | cons c rest ih =>
    intro x h
    simp only [funcSearch] at h
    cases hh : headerSplitAt (c :: rest) with
    | some pr => exact headerSplitAt_braceSame hh
    | none =>
      rw [hh] at h
      have hr : funcSearch rest = some x := h
      simp only [reBraceSame, ih hr, Bool.or_true]

theorem fbpl_passthrough {l : List Char} (hb : reBraceSame l = false)
    (he : reElseMatch l = none) : fix_brace_placement_line l = [l] := by
  simp only [fix_brace_placement_line]
  by_cases hs : strip l = ['\x7b'] ∨ strip l = ['\x7d']
  · rw [if_pos hs]
  · rw [if_neg hs, he]
    have hf : funcSearch l = none := by
      cases hfs : funcSearch l with
      | none => rfl
      | some pr =>
        rw [funcSearch_braceSame hfs] at hb
        cases hb
    rw [hf]

theorem flatten_map_singleton {α : Type} {l : List α} {f : α → List α}
    (h : ∀ x ∈ l, f x = [x]) : (l.map f).flatten = l := by
  induction l with
  | nil => rfl
  | cons a l ih =>
    simp only [List.map_cons, List.flatten_cons, h a (by simp)]
    rw [ih (fun x hx => h x (by simp [hx]))]
    rfl

/-- Claim C1 (amended): if linting a file's lines yields zero diagnostics
and additionally no line matches the else-brace shape, then the fix pass
(Normalizer over every line, then Rewriter over the sequence) returns the
lines byte-identical.  The else-shape exclusion is forced by the
counterexample `"} else {\n"`, which lints clean but is split into three
lines by the Rewriter. -/
theorem claim_C1 (lines : List (List Char))
    (hlint : lint_c_code lines = [])
    (helse : ∀ l ∈ lines, reElseMatch l = none) :
    fix_brace_placement (lines.map fix_pointer_spacing) = lines := by
  have hlint' : lintFile 1 lines = [] := hlint
  have hforall := lintFile_eq_nil hlint'
  have hfix : lines.map fix_pointer_spacing = lines := by
    have hid : ∀ l ∈ lines, fix_pointer_spacing l = l := fun l hl =>
      subPtrAux_id_of_no_search l _ false (lintLine_eq_nil (hforall l hl)).1
    calc lines.map fix_pointer_spacing = lines.map id := List.map_congr_left hid
    _ = lines := List.map_id lines
  rw [hfix]
  exact flatten_map_singleton (fun l hl =>
    fbpl_passthrough (lintLine_eq_nil (hforall l hl)).2.1 (helse l hl))

/-- Claim C1 counterexample: the single-line file `"} else {\n"` produces
zero diagnostics (it is fully compliant for the Linter), yet the fix pass
does not return it byte-identical — the Rewriter splits it into three
lines. -/
theorem claim_C1_cex :
    lint_c_code [("\x7d else \x7b\n").data] = [] ∧
      fix_brace_placement ([("\x7d else \x7b\n").data].map fix_pointer_spacing) ≠
        [("\x7d else \x7b\n").data] := by
  constructor
  · decide
  · decide

/-- Claim C1 witness: a concrete fully compliant file with no else-shaped
line is returned byte-identical by the fix pass. -/
theorem claim_C1_witness :
    lint_c_code [("int main(void)\n").data, ("\x7b\n").data, ("  return 0;\n").data,
        ("\x7d\n").data] = [] ∧
      fix_brace_placement
          ([("int main(void)\n").data, ("\x7b\n").data, ("  return 0;\n").data,
            ("\x7d\n").data].map fix_pointer_spacing) =
        [("int main(void)\n").data, ("\x7b\n").data, ("  return 0;\n").data,
          ("\x7d\n").data] :=
  ⟨by decide, claim_C1 _ (by decide) (by decide)⟩

/-- Claim C5: a line matching the else-shape that is not a lone brace is
rewritten into exactly three lines, each prefixed with the indentation
captured by the match's first group: the closing brace alone, the trimmed
else/else-if text without its trailing brace, and the opening brace
alone. -/
theorem claim_C5 (line ind g2 : List Char)
    (h1 : strip line ≠ ['\x7b']) (h2 : strip line ≠ ['\x7d'])
    (he : reElseMatch line = some (ind, g2)) :
    fix_brace_placement_line line =
      [ind ++ ['\x7d', '\n'], ind ++ strip g2 ++ ['\n'], ind ++ ['\x7b', '\n']] ∧
    (fix_brace_placement_line line).length = 3 := by
  have hfb : fix_brace_placement_line line =
      [ind ++ ['\x7d', '\n'], ind ++ strip g2 ++ ['\n'], ind ++ ['\x7b', '\n']] := by
    simp only [fix_brace_placement_line]
    rw [if_neg (not_or.mpr ⟨h1, h2⟩), he]
  exact ⟨hfb, by rw [hfb]; rfl⟩

/-- Claim C5 witness: the spec's example `"    } else if (x > 0) {"` is
rewritten to `"    }"`, `"    else if (x > 0)"`, `"    {"`. -/
theorem claim_C5_witness :
    fix_brace_placement_line (("    \x7d else if (x > 0) \x7b").data) =
      [("    \x7d\n").data, ("    else if (x > 0)\n").data, ("    \x7b\n").data] ∧
    (fix_brace_placement_line (("    \x7d else if (x > 0) \x7b").data)).length = 3 := by
  have h := claim_C5 (("    \x7d else if (x > 0) \x7b").data) (("    ").data)
    (("else if (x > 0) ").data) (by decide) (by decide) (by decide)
  exact ⟨by rw [h.1]; decide, h.2⟩

/-- Claim C6: a line matching the general header shape that is neither a
lone brace nor an else-shape is rewritten into: the prefix (group 1) with
the brace stripped, then a line with only the opening brace indented by
the original line's leading whitespace, then — exactly when the trailing
text is non-empty after trimming — a third indented line with that trimmed
text; so 2 output lines when the trailing text trims to empty, else 3. -/
theorem claim_C6 (line g1 g2 : List Char)
    (h1 : strip line ≠ ['\x7b']) (h2 : strip line ≠ ['\x7d'])
    (he : reElseMatch line = none) (hf : funcSearch line = some (g1, g2)) :
    fix_brace_placement_line line =
      (g1 ++ ['\n']) :: (line.takeWhile isSpaceChar ++ ['\x7b', '\n']) ::
        (if strip g2 = [] then []
         else [line.takeWhile isSpaceChar ++ strip g2 ++ ['\n']]) ∧
    (fix_brace_placement_line line).length = (if strip g2 = [] then 2 else 3) := by
  have hfb : fix_brace_placement_line line =
      (g1 ++ ['\n']) :: (line.takeWhile isSpaceChar ++ ['\x7b', '\n']) ::
        (if strip g2 = [] then []
         else [line.takeWhile isSpaceChar ++ strip g2 ++ ['\n']]) := by
    simp only [fix_brace_placement_line]
    rw [if_neg (not_or.mpr ⟨h1, h2⟩), he, hf]
  refine ⟨hfb, ?_⟩
  rw [hfb]
  by_cases hg : strip g2 = []
  · rw [if_pos hg, if_pos hg]
    rfl
  · rw [if_neg hg, if_neg hg]
    rfl

/-- Claim C6 witness: `"int main(void) {"` becomes exactly 2 lines, and
`"if (x) { return 1;"` becomes exactly 3 lines with the trimmed trailing
text third. -/
theorem claim_C6_witness :
    fix_brace_placement_line (("int main(void) \x7b").data) =
        [("int main(void)\n").data, ("\x7b\n").data] ∧
      (fix_brace_placement_line (("int main(void) \x7b").data)).length = 2 ∧
      fix_brace_placement_line (("if (x) \x7b return 1;").data) =
        [("if (x)\n").data, ("\x7b\n").data, ("return 1;\n").data] ∧
      (fix_brace_placement_line (("if (x) \x7b return 1;").data)).length = 3 := by
  have ha := claim_C6 (("int main(void) \x7b").data) (("int main(void)").data) []
    (by decide) (by decide) (by decide) (by decide)
  have hb := claim_C6 (("if (x) \x7b return 1;").data) (("if (x)").data)
    (("return 1;").data) (by decide) (by decide) (by decide) (by decide)
  refine ⟨by rw [ha.1]; decide, by rw [ha.2]; decide, by rw [hb.1]; decide,
    by rw [hb.2]; decide⟩

/- Lint ordering lemmas for claim C7. -/

theorem lintFile_key_bounds : ∀ {n : Nat} {ls : List (List Char)} {q : Nat × Rule},
    q ∈ lintFile n ls → n ≤ q.1 ∧ q.1 < n + ls.length := by
  intro n ls
  induction ls generalizing n with
  | nil => intro q h; cases h
  | cons a ls ih =>
    intro q h
    simp only [lintFile, List.mem_append] at h
    rcases h with h | h
    · obtain ⟨r, hr, rfl⟩ := List.mem_map.mp h
      simp only [List.length_cons]
      omega
    · have := ih h
      simp only [List.length_cons]
      omega

theorem lintFile_pairwise : ∀ (n : Nat) (ls : List (List Char)),
    List.Pairwise (fun a b : Nat × Rule => a.1 ≤ b.1) (lintFile n ls) := by
  intro n ls
  induction ls generalizing n with
  | nil => exact List.Pairwise.nil
  | cons a ls ih =>
    simp only [lintFile]
    rw [List.pairwise_append]
    refine ⟨?_, ih (n + 1), ?_⟩
    · rw [List.pairwise_map]
      have triv : ∀ xs : List Rule, List.Pairwise (fun x y : Rule => (n, x).1 ≤ (n, y).1) xs := by
        intro xs
        induction xs with
        | nil => exact List.Pairwise.nil
        | cons x xs ihx => exact List.Pairwise.cons (fun _ _ => le_refl n) ihx
      exact triv _
    · intro x hx y hy
      obtain ⟨r, hr, rfl⟩ := List.mem_map.mp hx
      have hb := (lintFile_key_bounds hy).1
      omega

theorem lintLine_sublist (l : List Char) :
    List.Sublist (lintLine l)
      [Rule.pointer, Rule.braceNewLine, Rule.openBraceAlone, Rule.closeBraceAlone] := by
  have h1 : List.Sublist (if rePtrSearch false l then [Rule.pointer] else [])
      [Rule.pointer] := by
    split <;> simp
  have h2 : List.Sublist (if reBraceSame l then [Rule.braceNewLine] else [])
      [Rule.braceNewLine] := by
    split <;> simp
  have h3 : List.Sublist (if reOpenNotAlone l then [Rule.openBraceAlone] else [])
      [Rule.openBraceAlone] := by
    split <;> simp
  have h4 : List.Sublist (if reCloseNotAlone l then [Rule.closeBraceAlone] else [])
      [Rule.closeBraceAlone] := by
    split <;> simp
  exact ((h1.append h2).append h3).append h4

/-- Claim C7: diagnostics are emitted in ascending 1-based line-number
order; the line numbers lie between 1 and the number of lines; and for any
single line the diagnostics form a sublist of the fixed four-rule order
(pointer spacing, brace on same line as closing parenthesis, opening brace
not alone, closing brace not alone) — hence each rule fires at most once
per line and a line emits between 0 and 4 diagnostics. -/
theorem claim_C7 :
    (∀ lines : List (List Char),
      List.Pairwise (fun a b : Nat × Rule => a.1 ≤ b.1) (lint_c_code lines)) ∧
    (∀ lines : List (List Char), ∀ q ∈ lint_c_code lines, 1 ≤ q.1 ∧ q.1 ≤ lines.length) ∧
    (∀ l : List Char,
      List.Sublist (lintLine l)
        [Rule.pointer, Rule.braceNewLine, Rule.openBraceAlone, Rule.closeBraceAlone]) := by
  refine ⟨fun lines => lintFile_pairwise 1 lines, fun lines q hq => ?_, lintLine_sublist⟩
  have := lintFile_key_bounds (n := 1) hq
  omega

/- Greedy split-point maximality for claim C9. -/

theorem headerSplitAt_lb : ∀ (a w r : List Char),
    (∀ c ∈ w, isSpaceChar c = true) → (∀ c ∈ a, c ≠ '\n') →
    ∃ g1 r', headerSplitAt (a ++ ')' :: (w ++ '\x7b' :: r)) = some (g1, r') ∧
      a.length < g1.length := by
  intro a
  induction a with
  | nil =>
    intro w r hw ha
    have hbs : braceSplit (w ++ '\x7b' :: r) = some r := by
      simp only [braceSplit]
      rw [List.dropWhile_append_of_pos hw, List.dropWhile_cons_of_neg (by decide)]
      rfl
    cases hh : headerSplitAt (w ++ '\x7b' :: r) with
    | some pr =>
      obtain ⟨g1, r'⟩ := pr
      refine ⟨')' :: g1, r', ?_, by simp⟩
      simp [headerSplitAt, hh]
    | none =>
      refine ⟨[')'], r, ?_, by simp⟩
      simp [headerSplitAt, hh, hbs]
  | cons c a ih =>
    intro w r hw ha
    obtain ⟨g1, r', hsome, hlen⟩ := ih w r hw (fun d hd => ha d (by simp [hd]))
    have hc : ¬ c = '\n' := ha c (by simp)
    refine ⟨c :: g1, r', ?_, ?_⟩
    · simp only [List.cons_append, headerSplitAt, List.append_eq, hsome]
      rw [if_neg hc]
    · simp only [List.length_cons]
      omega

theorem funcSearch_of_headerSplitAt {s g1 r : List Char}
    (h : headerSplitAt s = some (g1, r)) :
    funcSearch s =
      some (g1, (r.dropWhile isSpaceChar).takeWhile (fun d => !(d == '\n'))) := by
  cases s with
  | nil => cases h
  | cons c rest => simp only [funcSearch, h]

/-- Claim C9: when a line decomposes as `a ++ ")" ++ ws ++ "{" ++ r` with
`a` newline-free, the header search succeeds and the captured group 1
extends strictly past `a` — i.e. the split happens at the last opening
brace that is preceded (up to whitespace) by a closing parenthesis, so for
multi-header lines only the final brace is relocated and the emitted
prefix may itself still contain an opening brace. -/
theorem claim_C9 (s a w r : List Char)
    (hs : s = a ++ ')' :: (w ++ '\x7b' :: r))
    (hw : ∀ c ∈ w, isSpaceChar c = true)
    (ha : ∀ c ∈ a, c ≠ '\n') :
    ∃ g1 g2, funcSearch s = some (g1, g2) ∧ a.length < g1.length := by
  subst hs
  obtain ⟨g1, r', hsome, hlen⟩ := headerSplitAt_lb a w r hw ha
  exact ⟨g1, _, funcSearch_of_headerSplitAt hsome, hlen⟩

/-- Claim C9 witness: on `"if (a) { if (b) {"` the search splits at the
second brace (group 1 is the 15-character prefix `"if (a) { if (b)"`,
longer than any earlier valid split), the rewriter emits that prefix as a
line that still contains an opening brace, followed by a lone brace
line. -/
theorem claim_C9_witness :
    (∃ g1 g2, funcSearch (("if (a) \x7b if (b) \x7b").data) = some (g1, g2) ∧
      (("if (a) \x7b if (b").data).length < g1.length) ∧
    fix_brace_placement_line (("if (a) \x7b if (b) \x7b").data) =
      [("if (a) \x7b if (b)\n").data, ("\x7b\n").data] ∧
    '\x7b' ∈ ("if (a) \x7b if (b)\n").data := by
  refine ⟨claim_C9 _ (("if (a) \x7b if (b").data) [' '] []
    (by decide) (by decide) (by decide), by decide, by decide⟩

/- Output-event lemmas for the CLI claims. -/

theorem lintEvents_no_error (path : List Char) (lines : List (List Char)) :
    hasErrorEvent (lintEvents path lines) = false := by
  simp only [hasErrorEvent, lintEvents]
  apply List.any_eq_false.mpr
  intro x hx
  obtain ⟨q, hq, rfl⟩ := List.mem_map.mp hx
  simp

theorem runFile_no_error (env : Env) (b : Bool) (p : List Char) :
    hasErrorEvent (runFile env b p).1 = false := by
  cases b with
  | false =>
    simp only [runFile, Bool.false_eq_true, if_false]
    exact lintEvents_no_error _ _
  | true =>
    simp only [runFile, if_true]
    simp only [hasErrorEvent, List.any_cons]
    rw [Bool.or_eq_false_iff]
    exact ⟨rfl, lintEvents_no_error _ _⟩

theorem runFiles_no_error (env : Env) (b : Bool) : ∀ ps : List (List Char),
    hasErrorEvent (runFiles env b ps).1 = false := by
  intro ps
  induction ps with
  | nil => rfl
  | cons p ps ih =>
    simp only [runFiles]
    have ha : hasErrorEvent ((runFile env b p).1 ++ (runFiles env b ps).1) =
        (hasErrorEvent (runFile env b p).1 || hasErrorEvent (runFiles env b ps).1) :=
      List.any_append
    rw [ha, runFile_no_error, ih]
    rfl

/-- Claim C8: the process exits with status 1 exactly when fewer than two
user arguments are supplied, a single-file target lacks a `.c`/`.h`
suffix, or the target is neither an existing file nor a directory
(`exitErr`); in every other case it exits 0 regardless of diagnostics, and
an error line is printed exactly in the exit-1 cases.  (I/O exceptions
during reads and writes are outside this embedding; reads are assumed to
succeed.) -/
theorem claim_C8 (env : Env) :
    (main_model env).exitCode = (if exitErr env then 1 else 0) ∧
      hasErrorEvent (main_model env).output = exitErr env := by
  cases henv : env.argv with
  | nil => simp [main_model, exitErr, henv, hasErrorEvent]
  | cons a0 t0 =>
    cases t0 with
    | nil => simp [main_model, exitErr, henv, hasErrorEvent]
    | cons a1 t1 =>
      cases t1 with
      | nil => simp [main_model, exitErr, henv, hasErrorEvent]
      | cons a2 t2 =>
        by_cases hf : env.isfile a1 = true
        · by_cases hext : endsDotC a1 = true
          · constructor
            · simp [main_model, exitErr, henv, hf, hext]
            · rw [show hasErrorEvent (main_model env).output = false from ?_,
                show exitErr env = false from ?_]
              · simp [exitErr, henv, hf, hext]
              · simp only [main_model, henv, hf, hext, if_true]
                exact runFiles_no_error _ _ _
          · simp [main_model, exitErr, henv, hf, hext, hasErrorEvent]
        · by_cases hd : env.isdir a1 = true
          · constructor
            · simp [main_model, exitErr, henv, hf, hd]
            · rw [show hasErrorEvent (main_model env).output = false from ?_,
                show exitErr env = false from ?_]
              · simp [exitErr, henv, hf, hd]
              · simp only [main_model, henv, hf, hd, if_true]
                exact runFiles_no_error _ _ _
          · simp [main_model, exitErr, henv, hf, hd, hasErrorEvent]

/-- Claim C10: when the target is an existing directory whose subtree
contains no `.c`/`.h` file, the program reads no file, writes no file,
prints nothing at all, and exits with status 0 — for either value of the
fix flag. -/
theorem claim_C10 (env : Env) (a0 t a2 : List Char) (rest : List (List Char))
    (hargv : env.argv = a0 :: t :: a2 :: rest)
    (hfile : env.isfile t = false) (hdir : env.isdir t = true)
    (hwalk : env.walk.filter endsDotC = []) :
    (main_model env).exitCode = 0 ∧ (main_model env).output = [] ∧
      (main_model env).reads = [] ∧ (main_model env).writes = [] := by
  have hmm : main_model env = ⟨0, [], [], []⟩ := by
    simp only [main_model, hargv, get_all_c_files, hwalk]
    rw [if_neg (by simp [hfile]), if_pos hdir]
    rfl
  rw [hmm]
  exact ⟨rfl, rfl, rfl, rfl⟩

/-- Claim C10 witness: a concrete environment whose directory subtree
holds only `d/readme.txt`, in fix mode and in lint-only mode. -/
theorem claim_C10_witness :
    ((main_model ⟨[("p").data, ("d").data, ("true").data], fun _ => false,
        fun _ => true, [("d/readme.txt").data], fun _ => []⟩).exitCode = 0 ∧
      (main_model ⟨[("p").data, ("d").data, ("true").data], fun _ => false,
        fun _ => true, [("d/readme.txt").data], fun _ => []⟩).output = [] ∧
      (main_model ⟨[("p").data, ("d").data, ("true").data], fun _ => false,
        fun _ => true, [("d/readme.txt").data], fun _ => []⟩).reads = [] ∧
      (main_model ⟨[("p").data, ("d").data, ("true").data], fun _ => false,
        fun _ => true, [("d/readme.txt").data], fun _ => []⟩).writes = []) ∧
    ((main_model ⟨[("p").data, ("d").data, ("false").data], fun _ => false,
        fun _ => true, [("d/readme.txt").data], fun _ => []⟩).exitCode = 0 ∧
      (main_model ⟨[("p").data, ("d").data, ("false").data], fun _ => false,
        fun _ => true, [("d/readme.txt").data], fun _ => []⟩).output = [] ∧
      (main_model ⟨[("p").data, ("d").data, ("false").data], fun _ => false,
        fun _ => true, [("d/readme.txt").data], fun _ => []⟩).reads = [] ∧
      (main_model ⟨[("p").data, ("d").data, ("false").data], fun _ => false,
        fun _ => true, [("d/readme.txt").data], fun _ => []⟩).writes = []) := by
  constructor
  · exact claim_C10 _ _ _ _ _ rfl rfl rfl (by decide)
  · exact claim_C10 _ _ _ _ _ rfl rfl rfl (by decide)

/- Non-whitespace content lemmas for claim C2. -/

theorem nonWsOf_append (a b : List Char) : nonWsOf (a ++ b) = nonWsOf a ++ nonWsOf b :=
  List.filter_append a b

theorem nonWsOf_of_space {u : List Char} (h : ∀ c ∈ u, isSpaceChar c = true) :
    nonWsOf u = [] :=
  List.filter_eq_nil_iff.mpr (fun c hc => by simp [h c hc])

theorem nonWsOf_cons_keep {c : Char} (hc : isSpaceChar c = false) (l : List Char) :
    nonWsOf (c :: l) = c :: nonWsOf l := by
  simp [nonWsOf, List.filter_cons, hc]

theorem nonWsOf_cons_drop {c : Char} (hc : isSpaceChar c = true) (l : List Char) :
    nonWsOf (c :: l) = nonWsOf l := by
  simp [nonWsOf, List.filter_cons, hc]

theorem nonWsOf_dropWhile (s : List Char) :
    nonWsOf (s.dropWhile isSpaceChar) = nonWsOf s := by
  induction s with
  | nil => rfl
  | cons c t ih =>
    by_cases hc : isSpaceChar c = true
    · rw [List.dropWhile_cons_of_pos hc, ih, nonWsOf_cons_drop hc]
    · rw [List.dropWhile_cons_of_neg hc]

theorem nonWsOf_strip (s : List Char) : nonWsOf (strip s) = nonWsOf s := by
  simp only [strip]
  rw [show nonWsOf (((s.dropWhile isSpaceChar).reverse.dropWhile isSpaceChar).reverse) =
      (nonWsOf ((s.dropWhile isSpaceChar).reverse.dropWhile isSpaceChar)).reverse from
      List.filter_reverse _ _,
    nonWsOf_dropWhile,
    show nonWsOf ((s.dropWhile isSpaceChar).reverse) =
      (nonWsOf (s.dropWhile isSpaceChar)).reverse from List.filter_reverse _ _,
    nonWsOf_dropWhile, List.reverse_reverse]

/- Shape analysis of the per-line rewriter. -/

theorem fbpl_cases (line : List Char) :
    fix_brace_placement_line line = [line] ∨
    (∃ ind g2, reElseMatch line = some (ind, g2) ∧
      fix_brace_placement_line line =
        [ind ++ ['\x7d', '\n'], ind ++ strip g2 ++ ['\n'], ind ++ ['\x7b', '\n']]) ∨
    (∃ g1 g2, reElseMatch line = none ∧ funcSearch line = some (g1, g2) ∧
      fix_brace_placement_line line =
        (g1 ++ ['\n']) :: (line.takeWhile isSpaceChar ++ ['\x7b', '\n']) ::
          (if strip g2 = [] then []
           else [line.takeWhile isSpaceChar ++ strip g2 ++ ['\n']])) := by
  simp only [fix_brace_placement_line]
  by_cases hs : strip line = ['\x7b'] ∨ strip line = ['\x7d']
  · rw [if_pos hs]
    exact Or.inl rfl
  · rw [if_neg hs]
    cases he : reElseMatch line with
    | some pr =>
      obtain ⟨a, b⟩ := pr
      exact Or.inr (Or.inl ⟨a, b, rfl, rfl⟩)
    | none =>
      cases hf : funcSearch line with
      | some pr =>
        obtain ⟨g1, g2⟩ := pr
        exact Or.inr (Or.inr ⟨g1, g2, rfl, rfl, rfl⟩)
      | none => exact Or.inl rfl

theorem fbpl_length (line : List Char) :
    1 ≤ (fix_brace_placement_line line).length ∧
      (fix_brace_placement_line line).length ≤ 3 := by
  rcases fbpl_cases line with hc | ⟨ind, g2, he, hc⟩ | ⟨g1, g2, he, hf, hc⟩
  · rw [hc]
    exact ⟨by simp, by simp⟩
  · rw [hc]
    exact ⟨by simp, by simp⟩
  · rw [hc]
    by_cases hg : strip g2 = []
    · rw [if_pos hg]
      exact ⟨by simp, by simp⟩
    · rw [if_neg hg]
      exact ⟨by simp, by simp⟩

theorem fbp_length_ge (lines : List (List Char)) :
    lines.length ≤ (fix_brace_placement lines).length := by
  induction lines with
  | nil => simp [fix_brace_placement]
  | cons l ls ih =>
    simp only [fix_brace_placement, List.map_cons, List.flatten_cons, List.length_append,
      List.length_cons]
    simp only [fix_brace_placement] at ih
    have h1 := (fbpl_length l).1
    omega

/- Inversion lemmas for the else and header matchers. -/

theorem mem_dropWhile_ne {a : Char} : ∀ {l : List Char}, a ∈ l →
    ∃ t1, l.dropWhile (fun d => !(d == a)) = a :: t1 := by
  intro l
  induction l with
  | nil => intro h; cases h
  | cons c t ih =>
    intro h
    by_cases hc : c = a
    · subst hc
      exact ⟨t, by rw [List.dropWhile_cons_of_neg (by simp)]⟩
    · rw [List.dropWhile_cons_of_pos (by simp [hc])]
      refine ih ?_
      rcases List.mem_cons.mp h with h1 | h1
      · exact absurd h1.symm hc
      · exact h1

theorem reElseMatch_inv {line ind g2 : List Char} (h : reElseMatch line = some (ind, g2)) :
    ind = line.takeWhile isSpaceChar ∧
    ∃ r2 t, line.dropWhile isSpaceChar = '\x7d' :: r2 ∧
      r2.dropWhile isSpaceChar = 'e' :: 'l' :: 's' :: 'e' :: t ∧
      g2 = 'e' :: 'l' :: 's' :: 'e' :: t.takeWhile (fun d => !(d == '\x7b')) ∧
      '\x7b' ∈ t := by
  simp only [reElseMatch] at h
  split at h
  · split at h
    · split at h
      · cases h
      · split at h
        · cases h
        · split at h
          · rename_i x1 r2 heqline x2 t0 c tail heqelse hword hmem
            rw [Option.some.injEq, Prod.mk.injEq] at h
            obtain ⟨h1, h2⟩ := h
            exact ⟨h1.symm, r2, c :: tail, heqline, heqelse, h2.symm, hmem⟩
          · cases h
    · cases h
  · cases h

theorem braceSplit_some_inv {rest r : List Char} (h : braceSplit rest = some r) :
    rest.dropWhile isSpaceChar = '\x7b' :: r := by
  simp only [braceSplit] at h
  split at h
  · rename_i r0 heq
    rw [Option.some.injEq] at h
    rw [heq, h]
  · cases h

theorem headerSplitAt_cons_some {c : Char} {rest p1 p2 : List Char}
    (hh : headerSplitAt rest = some (p1, p2)) (hc : ¬ c = '\n') :
    headerSplitAt (c :: rest) = some (c :: p1, p2) := by
  show (match headerSplitAt rest with
        | some (g1, r) => if c = '\n' then none else some (c :: g1, r)
        | none =>
          if c = ')' then (braceSplit rest).map (fun r => ([c], r)) else none) =
      some (c :: p1, p2)
  rw [hh]
  show (if c = '\n' then none else some (c :: p1, p2)) = some (c :: p1, p2)
  rw [if_neg hc]

theorem headerSplitAt_some : ∀ {s g1 r : List Char}, headerSplitAt s = some (g1, r) →
    ∃ w, s = g1 ++ (w ++ '\x7b' :: r) ∧ (∀ c ∈ w, isSpaceChar c = true) := by
  intro s
  induction s with
  | nil => intro g1 r h; cases h
  | cons c rest ih =>
    intro g1 r h
    simp only [headerSplitAt] at h
    cases hh : headerSplitAt rest with
    | some pr =>
      obtain ⟨p1, p2⟩ := pr
      rw [hh] at h
      have h2 : (if c = '\n' then none else some (c :: p1, p2)) = some (g1, r) := h
      by_cases hc : c = '\n'
      · rw [if_pos hc] at h2
        cases h2
      · rw [if_neg hc] at h2
        rw [Option.some.injEq, Prod.mk.injEq] at h2
        obtain ⟨h1, hp2⟩ := h2
        subst hp2
        obtain ⟨w, hw1, hw2⟩ := ih hh
        refine ⟨w, ?_, hw2⟩
        rw [← h1, hw1]
        simp
    | none =>
      rw [hh] at h
      have h2 : (if c = ')' then (braceSplit rest).map (fun r => ([c], r)) else none) =
          some (g1, r) := h
      by_cases hc : c = ')'
      · rw [if_pos hc] at h2
        cases hbs : braceSplit rest with
        | none => rw [hbs] at h2; cases h2
        | some r' =>
          rw [hbs] at h2
          have h3 : some ([c], r') = some (g1, r) := h2
          rw [Option.some.injEq, Prod.mk.injEq] at h3
          obtain ⟨h1, hp2⟩ := h3
          subst hp2
          have hd := braceSplit_some_inv hbs
          refine ⟨rest.takeWhile isSpaceChar, ?_,
            fun d hd2 => List.mem_takeWhile_imp hd2⟩
          rw [← h1]
          conv_lhs => rw [show rest = rest.takeWhile isSpaceChar ++ rest.dropWhile isSpaceChar
            from (List.takeWhile_append_dropWhile _ _).symm, hd]
          simp
      · rw [if_neg hc] at h2
        cases h2

theorem funcSearch_wf : ∀ {s : List Char}, (∀ c ∈ s.dropLast, c ≠ '\n') →
    ∀ {g1 g2 : List Char}, funcSearch s = some (g1, g2) →
    ∃ r, headerSplitAt s = some (g1, r) ∧
      g2 = (r.dropWhile isSpaceChar).takeWhile (fun d => !(d == '\n')) := by
  intro s
  induction s with
  | nil => intro _ g1 g2 h; cases h
  | cons c rest ih =>
    intro hnl g1 g2 h
    simp only [funcSearch] at h
    cases hh : headerSplitAt (c :: rest) with
    | some pr =>
      obtain ⟨p1, p2⟩ := pr
      rw [hh] at h
      have h2 : some (p1, (p2.dropWhile isSpaceChar).takeWhile (fun d => !(d == '\n'))) =
          some (g1, g2) := h
      rw [Option.some.injEq, Prod.mk.injEq] at h2
      obtain ⟨h1, hg⟩ := h2
      subst h1
      exact ⟨p2, rfl, hg.symm⟩
    | none =>
      rw [hh] at h
      have hr : funcSearch rest = some (g1, g2) := h
      cases rest with
      | nil => cases hr
      | cons c2 rest2 =>
        have hc : c ≠ '\n' := hnl c (by
          rw [show (c :: c2 :: rest2).dropLast = c :: (c2 :: rest2).dropLast from rfl]
          exact List.mem_cons_self _ _)
        cases hhh : headerSplitAt (c2 :: rest2) with
        | some pr2 =>
          exfalso
          obtain ⟨q1, q2⟩ := pr2
          have hcontra := headerSplitAt_cons_some hhh hc
          rw [hh] at hcontra
          cases hcontra
        | none =>
          obtain ⟨r, hsome, -⟩ := ih (fun d hd => hnl d (by
            rw [show (c :: c2 :: rest2).dropLast = c :: (c2 :: rest2).dropLast from rfl]
            exact List.mem_cons_of_mem _ hd)) hr
          rw [hsome] at hhh
          cases hhh

theorem nonWsOf_else (X : List Char) :
    nonWsOf ('e' :: 'l' :: 's' :: 'e' :: X) = 'e' :: 'l' :: 's' :: 'e' :: nonWsOf X := by
  rw [nonWsOf_cons_keep (c := 'e') rfl, nonWsOf_cons_keep (c := 'l') rfl,
    nonWsOf_cons_keep (c := 's') rfl, nonWsOf_cons_keep (c := 'e') rfl]

theorem reElseMatch_nonWs {line ind g2 : List Char}
    (h : reElseMatch line = some (ind, g2)) :
    (∀ c ∈ ind, isSpaceChar c = true) ∧
    ∃ t1, nonWsOf line = '\x7d' :: (nonWsOf g2 ++ '\x7b' :: nonWsOf t1) := by
  obtain ⟨hind, r2, t, hdw, hr2, hg2, hmem⟩ := reElseMatch_inv h
  refine ⟨by rw [hind]; exact fun c hc => List.mem_takeWhile_imp hc, ?_⟩
  obtain ⟨t1, ht1⟩ := mem_dropWhile_ne hmem
  refine ⟨t1, ?_⟩
  have e1 : nonWsOf line = '\x7d' :: nonWsOf r2 := by
    conv_lhs => rw [show line = line.takeWhile isSpaceChar ++ line.dropWhile isSpaceChar from
      (List.takeWhile_append_dropWhile _ _).symm, hdw]
    rw [nonWsOf_append, nonWsOf_of_space (fun c hc => List.mem_takeWhile_imp hc),
      List.nil_append, nonWsOf_cons_keep (c := '\x7d') rfl]
  have e2 : nonWsOf r2 = 'e' :: 'l' :: 's' :: 'e' :: nonWsOf t := by
    conv_lhs => rw [show r2 = r2.takeWhile isSpaceChar ++ r2.dropWhile isSpaceChar from
      (List.takeWhile_append_dropWhile _ _).symm, hr2]
    rw [nonWsOf_append, nonWsOf_of_space (fun c hc => List.mem_takeWhile_imp hc),
      List.nil_append, nonWsOf_else]
  have e3 : nonWsOf t =
      nonWsOf (t.takeWhile (fun d => !(d == '\x7b'))) ++ '\x7b' :: nonWsOf t1 := by
    conv_lhs => rw [show t = t.takeWhile (fun d => !(d == '\x7b')) ++
        t.dropWhile (fun d => !(d == '\x7b')) from
      (List.takeWhile_append_dropWhile _ _).symm, ht1]
    rw [nonWsOf_append, nonWsOf_cons_keep (c := '\x7b') rfl]
  have e4 : nonWsOf g2 =
      'e' :: 'l' :: 's' :: 'e' :: nonWsOf (t.takeWhile (fun d => !(d == '\x7b'))) := by
    rw [hg2, nonWsOf_else]
  rw [e1, e2, e3, e4]
  simp [List.cons_append]

/-- Claim C2 (amended): for lines with no interior newline (as `readlines`
produces), every input line yields between 1 and 3 output lines whose
non-whitespace content is an initial segment of the line's non-whitespace
content (so everything emitted is drawn from the line, in order); for lines
that do not match the else-brace shape nothing is discarded (the
non-whitespace content is preserved exactly); and the output sequence never
has fewer lines than the input.  The "none of it discarded" part of the
original claim is refuted by `"} else { x = 1;"` — the else branch drops
the text after the opening brace. -/
theorem claim_C2 (line : List Char) (hnl : ∀ c ∈ line.dropLast, c ≠ '\n') :
    (1 ≤ (fix_brace_placement_line line).length ∧
      (fix_brace_placement_line line).length ≤ 3) ∧
    (∃ t, nonWsOf (fix_brace_placement_line line).flatten ++ t = nonWsOf line) ∧
    (reElseMatch line = none →
      nonWsOf (fix_brace_placement_line line).flatten = nonWsOf line) ∧
    (∀ lines : List (List Char), lines.length ≤ (fix_brace_placement lines).length) := by
  have key : ∃ t0, nonWsOf (fix_brace_placement_line line).flatten ++ t0 = nonWsOf line ∧
      (reElseMatch line = none → t0 = []) := by
    rcases fbpl_cases line with hc | ⟨ind, g2, he, hc⟩ | ⟨g1, g2, he, hf, hc⟩
    · exact ⟨[], by simp [hc], fun _ => rfl⟩
    · obtain ⟨hind, t1, hnw⟩ := reElseMatch_nonWs he
      refine ⟨nonWsOf t1, ?_, fun hn => by rw [hn] at he; cases he⟩
      rw [hc, hnw]
      have eind : nonWsOf ind = [] := nonWsOf_of_space hind
      have k1 : ∀ l, nonWsOf ('\x7d' :: l) = '\x7d' :: nonWsOf l :=
        fun l => nonWsOf_cons_keep (c := '\x7d') rfl l
      have k2 : ∀ l, nonWsOf ('\x7b' :: l) = '\x7b' :: nonWsOf l :=
        fun l => nonWsOf_cons_keep (c := '\x7b') rfl l
      have k3 : ∀ l, nonWsOf ('\n' :: l) = nonWsOf l :=
        fun l => nonWsOf_cons_drop (c := '\n') rfl l
      have n0 : nonWsOf ([] : List Char) = [] := rfl
      simp [List.flatten_cons, nonWsOf_append, eind, k1, k2, k3, n0, nonWsOf_strip]
    · refine ⟨[], ?_, fun _ => rfl⟩
      rw [List.append_nil, hc]
      obtain ⟨r, hsplit, hg2def⟩ := funcSearch_wf hnl hf
      obtain ⟨w, hline, hwsp⟩ := headerSplitAt_some hsplit
      have hind : ∀ c ∈ line.takeWhile isSpaceChar, isSpaceChar c = true :=
        fun c hcm => List.mem_takeWhile_imp hcm
      have hleft : nonWsOf ((r.dropWhile isSpaceChar).dropWhile (fun d => !(d == '\n'))) =
          [] := by
        rcases dropWhile_head_cases (fun d => !(d == '\n')) (r.dropWhile isSpaceChar) with
          h0 | ⟨d, td, hdt, hd⟩
        · rw [h0]
          rfl
        · have hdn : d = '\n' := by simpa using hd
          subst hdn
          cases htd : td with
          | nil =>
            rw [hdt, htd]
            rfl
          | cons x xs =>
            exfalso
            have hreq : r = r.takeWhile isSpaceChar ++
                ((r.dropWhile isSpaceChar).takeWhile (fun d => !(d == '\n')) ++
                  '\n' :: td) := by
              conv_lhs => rw [← List.takeWhile_append_dropWhile isSpaceChar r]
              congr 1
              conv_lhs => rw [← List.takeWhile_append_dropWhile (fun d => !(d == '\n'))
                (r.dropWhile isSpaceChar), hdt]
            have hlineq : line = (g1 ++ (w ++ '\x7b' ::
                (r.takeWhile isSpaceChar ++
                  (r.dropWhile isSpaceChar).takeWhile (fun d => !(d == '\n'))))) ++
                '\n' :: td := by
              rw [hline]
              conv_lhs => rw [hreq]
              simp [List.append_assoc]
            have hmem : '\n' ∈ line.dropLast := by
              rw [hlineq, List.dropLast_append_of_ne_nil _ (by simp)]
              apply List.mem_append_right
              rw [htd]
              rw [show ('\n' :: x :: xs).dropLast = '\n' :: (x :: xs).dropLast from rfl]
              exact List.mem_cons_self _ _
            exact hnl '\n' hmem rfl
      have hq2 : nonWsOf (r.dropWhile isSpaceChar) = nonWsOf g2 := by
        conv_lhs => rw [← List.takeWhile_append_dropWhile (fun d => !(d == '\n'))
          (r.dropWhile isSpaceChar)]
        rw [nonWsOf_append, hleft, List.append_nil, ← hg2def]
      have hrnw : nonWsOf r = nonWsOf g2 := by
        rw [← nonWsOf_dropWhile r, hq2]
      have hlnw : nonWsOf line = nonWsOf g1 ++ '\x7b' :: nonWsOf g2 := by
        rw [hline, nonWsOf_append, nonWsOf_append, nonWsOf_of_space hwsp,
          nonWsOf_cons_keep (c := '\x7b') rfl, hrnw]
        simp
      rw [hlnw]
      have eind : nonWsOf (line.takeWhile isSpaceChar) = [] := nonWsOf_of_space hind
      have k2 : ∀ l, nonWsOf ('\x7b' :: l) = '\x7b' :: nonWsOf l :=
        fun l => nonWsOf_cons_keep (c := '\x7b') rfl l
      have k3 : ∀ l, nonWsOf ('\n' :: l) = nonWsOf l :=
        fun l => nonWsOf_cons_drop (c := '\n') rfl l
      have n0 : nonWsOf ([] : List Char) = [] := rfl
      by_cases hg : strip g2 = []
      · rw [if_pos hg]
        have hg2nil : nonWsOf g2 = [] := by
          rw [← nonWsOf_strip, hg]
          rfl
        simp [List.flatten_cons, nonWsOf_append, eind, k2, k3, n0, hg2nil]
      · rw [if_neg hg]
        simp [List.flatten_cons, nonWsOf_append, eind, k2, k3, n0, nonWsOf_strip]
  obtain ⟨t0, heq, hcond⟩ := key
  refine ⟨fbpl_length line, ⟨t0, heq⟩, fun hn => ?_, fbp_length_ge⟩
  rw [hcond hn, List.append_nil] at heq
  exact heq

/-- Claim C2 counterexample: on the line `"} else { x = 1;\n"` the Rewriter
discards non-whitespace content — the character `x` (and the rest of the
statement after the opening brace) is present in the input line but absent
from every output line, refuting "none of it discarded". -/
theorem claim_C2_cex :
    ('x' ∈ nonWsOf (("\x7d else \x7b x = 1;\n").data)) ∧
    ('x' ∉ (fix_brace_placement_line (("\x7d else \x7b x = 1;\n").data)).flatten) ∧
    nonWsOf (fix_brace_placement_line (("\x7d else \x7b x = 1;\n").data)).flatten ≠
      nonWsOf (("\x7d else \x7b x = 1;\n").data) := by
  refine ⟨by decide, by decide, by decide⟩

/-- Claim C2 witness: the amended per-line properties evaluated on the
concrete header line `"int main(void) \x7b"`. -/
theorem claim_C2_witness :
    (1 ≤ (fix_brace_placement_line (("int main(void) \x7b").data)).length ∧
      (fix_brace_placement_line (("int main(void) \x7b").data)).length ≤ 3) ∧
    (∃ t, nonWsOf (fix_brace_placement_line (("int main(void) \x7b").data)).flatten ++ t =
      nonWsOf (("int main(void) \x7b").data)) ∧
    (reElseMatch (("int main(void) \x7b").data) = none →
      nonWsOf (fix_brace_placement_line (("int main(void) \x7b").data)).flatten =
        nonWsOf (("int main(void) \x7b").data)) ∧
    (∀ lines : List (List Char), lines.length ≤ (fix_brace_placement lines).length) :=
  claim_C2 (("int main(void) \x7b").data) (by decide)
